import Mathlib

/-!
Verification of the WindNote note/metadata store and import pipeline
(`windnote.py`).

Shallow embedding conventions:

* Paths are modelled relative to the notes root, as strings with `/`
  separators.  `os.path.relpath(abs, notes_dir).replace('\\', '/')`
  is modelled as the identity on such root-relative strings, and
  `os.sep` is modelled as `"/"` (the POSIX value; metadata keys are
  normalised to `/` by the source in every operation).
* The filesystem is a function from relative path to an optional entry
  (kind, timestamps, file content).  Timestamps are natural numbers;
  each call that reads `datetime.now()` takes the current instant as an
  explicit argument (the two `now()` reads inside one `save_note` call
  are collapsed to a single instant).
* A Python metadata record is a dict whose five known fields may each be
  absent, so records are structures of `Option` fields; the metadata map
  is an association list with Python-dict semantics (first match wins,
  assignment replaces in place, else appends).
* Fallible Python code (functions that may raise) returns `Option`;
  operations that return `(result, error_message)` pairs are modelled as
  `Option result × state`, dropping the human-readable message strings.
-/

/-- One stored metadata record (`metadata.json` value): a JSON/dict object
whose five known fields may each be absent. -/
structure MetaRec where
  created_at : Option Nat
  modified_at : Option Nat
  summary : Option String
  is_pinned : Option Bool
  is_favorite : Option Bool
deriving DecidableEq, Repr

/-- The record with every field absent (`{}`). -/
def emptyRec : MetaRec := ⟨none, none, none, none, none⟩

/-- A filesystem entry: directory flag, creation and modification times
(`os.path.getctime` / `os.path.getmtime`), and file text content. -/
structure FSEntry where
  isDir : Bool
  ctime : Nat
  mtime : Nat
  content : String
deriving DecidableEq, Repr

/-- The filesystem under the notes root: relative path to optional entry. -/
def FSFun : Type := String → Option FSEntry

/-- Whether a path exists on the filesystem (`os.path.exists`). -/
def fsExists (fs : FSFun) (p : String) : Bool := (fs p).isSome

/-- Whether a path is an existing directory (`os.path.isdir`). -/
def isDirF (fs : FSFun) (p : String) : Bool :=
  match fs p with
  | some e => e.isDir
  | none => false

/-- The in-memory state of a `NoteManager`: the filesystem below
`notes_dir` plus the loaded `self.metadata` dict. -/
structure NMState where
  fs : FSFun
  metadata : List (String × MetaRec)

/-- Python dict lookup `m.get(k)` on the association-list model. -/
def mlookup : List (String × MetaRec) → String → Option MetaRec
  | [], _ => none
  | (k, v) :: rest, q => if q = k then some v else mlookup rest q

/-- Python dict assignment `m[k] = v`: replace in place, else append. -/
def dictSet : List (String × MetaRec) → String → MetaRec → List (String × MetaRec)
  | [], k, v => [(k, v)]
  | (k', v') :: rest, k, v =>
    if k' = k then (k, v) :: rest else (k', v') :: dictSet rest k v

/-- Python dict deletion `del m[k]` / `m.pop(k)` (key removal part). -/
def dictDel : List (String × MetaRec) → String → List (String × MetaRec)
  | [], _ => []
  | (k', v') :: rest, k =>
    if k' = k then dictDel rest k else (k', v') :: dictDel rest k

/-- The keys of the metadata dict, in order (`list(m.keys())`). -/
def dkeys (m : List (String × MetaRec)) : List String := m.map Prod.fst

theorem mlookup_dictSet_self (m : List (String × MetaRec)) (k : String) (v : MetaRec) :
    mlookup (dictSet m k v) k = some v := by
  induction m with
  | nil => simp [dictSet, mlookup]
  | cons hd tl ih =>
    obtain ⟨k', v'⟩ := hd
    by_cases h : k' = k
    · simp [dictSet, h, mlookup]
    · simp only [dictSet, if_neg h, mlookup]
      rw [if_neg (fun hq => h hq.symm), ih]

theorem mlookup_dictSet_other (m : List (String × MetaRec)) (k q : String) (v : MetaRec)
    (h : q ≠ k) : mlookup (dictSet m k v) q = mlookup m q := by
  induction m with
  | nil => simp [dictSet, mlookup, h]
  | cons hd tl ih =>
    obtain ⟨k', v'⟩ := hd
    by_cases hk : k' = k
    · subst hk
      simp [dictSet, mlookup, h, if_neg h]
    · simp only [dictSet, if_neg hk, mlookup]
      by_cases hq : q = k'
      · simp [hq]
      · simp [hq, ih]

theorem mlookup_dictDel_self (m : List (String × MetaRec)) (k : String) :
    mlookup (dictDel m k) k = none := by
  induction m with
  | nil => rfl
  | cons hd tl ih =>
    obtain ⟨k', v'⟩ := hd
    by_cases hk : k' = k
    · simpa [dictDel, hk] using ih
    · simp only [dictDel, if_neg hk, mlookup]
      rw [if_neg (fun hq => hk hq.symm), ih]

theorem mlookup_dictDel_other (m : List (String × MetaRec)) (k q : String)
    (h : q ≠ k) : mlookup (dictDel m k) q = mlookup m q := by
  induction m with
  | nil => rfl
  | cons hd tl ih =>
    obtain ⟨k', v'⟩ := hd
    by_cases hk : k' = k
    · subst hk
      simp [dictDel, mlookup, if_neg h, ih]
    · simp only [dictDel, if_neg hk, mlookup]
      by_cases hq : q = k'
      · simp [hq]
      · simp [hq, ih]

/-- `b.startswith(a + os.sep)` with `os.sep = "/"`: `b` lies strictly
inside the directory subtree named `a`. -/
def isUnder (a b : String) : Bool := (a.data ++ ['/']).isPrefixOf b.data

/-- The key condition of the rename/move cascade in `move_item` /
`rename_item`: `p == old_rel_path_prefix or
p.startswith(old_rel_path_prefix + os.sep)`. -/
def movMatch (old p : String) : Bool := p = old || isUnder old p

/-- `os.path.join` in root-relative space (the notes root itself is `""`). -/
def joinRel (parent name : String) : String :=
  if parent = "" then name else parent ++ "/" ++ name

/-- `os.path.basename` of a `/`-separated relative path. -/
def baseNameRel (p : String) : String :=
  ⟨(p.data.reverse.takeWhile (fun c => c ≠ '/')).reverse⟩

/-- `os.path.dirname` of a `/`-separated relative path. -/
def dirNameRel (p : String) : String :=
  ⟨((p.data.reverse.dropWhile (fun c => c ≠ '/')).drop 1).reverse⟩

/-- `os.path.splitext(name)[0]`: the name with its extension removed;
leading dots never begin an extension. -/
def splitExtRoot (name : String) : String :=
  let s := name.data
  let rtake := s.reverse.takeWhile (fun c => c ≠ '.')
  if rtake.length = s.length then name
  else
    let root := s.take (s.length - rtake.length - 1)
    if root.all (fun c => c = '.') then name else ⟨root⟩

/-- Python first-occurrence substring replacement `s.replace(pat, rep, 1)`
on character lists. -/
def replFirst (pat rep : List Char) : List Char → List Char
  | [] => if pat.isPrefixOf ([] : List Char) then rep else []
  | c :: cs =>
    if pat.isPrefixOf (c :: cs) then rep ++ (c :: cs).drop pat.length
    else c :: replFirst pat rep cs

/-- `s.replace(pat, rep, 1)` on strings. -/
def pyReplaceFirst (s pat rep : String) : String := ⟨replFirst pat.data rep.data s.data⟩

/-- The rewritten key produced by the cascade for a matched key `p`:
`new` followed by the part of `p` after the old prefix. -/
def rwKey (old nw p : String) : String := ⟨nw.data ++ p.data.drop old.data.length⟩

/-- One iteration of the metadata rewrite loop of `move_item` /
`rename_item`: `if p == old or p.startswith(old + os.sep): metadata[p.replace(old, new, 1)] = metadata.pop(p)`. -/
def rewriteStep (old nw : String) (m : List (String × MetaRec)) (p : String) :
    List (String × MetaRec) :=
  if movMatch old p then
    match mlookup m p with
    | some v => dictSet (dictDel m p) (pyReplaceFirst p old nw) v
    | none => m
  else m

/-- The whole rewrite loop: `for p in list(self.metadata.keys()): ...`,
folding `rewriteStep` over a snapshot of the keys. -/
def rewriteAll (old nw : String) (m : List (String × MetaRec)) :
    List (String × MetaRec) :=
  (dkeys m).foldl (rewriteStep old nw) m

/-- `shutil.move` / `os.rename` effect on the filesystem: the whole
subtree below `src` is relocated below `dst`, entries preserved. -/
def fsMove (fs : FSFun) (src dst : String) : FSFun :=
  fun q =>
    if q = src || isUnder src q then none
    else if q = dst then fs src
    else if isUnder dst q then fs ⟨src.data ++ q.data.drop dst.data.length⟩
    else fs q

/-- Writing a file (`open(path, 'w')` + `write`): creates or truncates;
an existing file keeps its creation time, the modification time becomes
`now`. -/
def fsWrite (fs : FSFun) (p content : String) (now : Nat) : FSFun :=
  fun q =>
    if q = p then
      some ⟨false, (match fs p with | some e => e.ctime | none => now), now, content⟩
    else fs q

/-- `os.makedirs(path)`: create the directory entry. -/
def fsMkdir (fs : FSFun) (p : String) (now : Nat) : FSFun :=
  fun q => if q = p then some ⟨true, now, now, ""⟩ else fs q

/-- `shutil.rmtree(path)` / `os.remove(path)` on a whole subtree. -/
def fsRmtree (fs : FSFun) (p : String) : FSFun :=
  fun q => if q = p || isUnder p q then none else fs q

/-- The fully-populated record returned by `get_item_metadata`
(filesystem defaults overlaid with whatever stored fields exist). -/
structure FullMeta where
  created_at : Nat
  modified_at : Nat
  summary : String
  is_pinned : Bool
  is_favorite : Bool
deriving DecidableEq, Repr

/-- `default_meta.update(meta)`: a stored field overrides the
filesystem-derived default, an absent field leaves it. -/
def overlayRec (d : FullMeta) (r : MetaRec) : FullMeta :=
  ⟨r.created_at.getD d.created_at, r.modified_at.getD d.modified_at,
   r.summary.getD d.summary, r.is_pinned.getD d.is_pinned,
   r.is_favorite.getD d.is_favorite⟩

/-- `NoteManager.get_item_metadata` (windnote.py:394-403).  `none` models
the `OSError` raised by `os.path.getctime` when the path does not exist. -/
def get_item_metadata (s : NMState) (p : String) : Option FullMeta :=
  match s.fs p with
  | none => none
  | some e =>
    some (overlayRec ⟨e.ctime, e.mtime, "", false, false⟩
      ((mlookup s.metadata p).getD emptyRec))

/-- Truthiness of `m.get('summary')`: present and a non-empty string. -/
def truthyS : Option String → Bool
  | none => false
  | some s => s ≠ ""

/-- The auto-derived summary of `save_note`:
`content[:100].replace('\n', ' ') + '...'`. -/
def autoSummary (content : String) : String :=
  (⟨(content.data.take 100).map (fun c => if c = '\n' then ' ' else c)⟩ : String) ++ "..."

/-- Record-field updates (Python item assignment on the record dict). -/
def setModified (r : MetaRec) (v : Option Nat) : MetaRec :=
  ⟨r.created_at, v, r.summary, r.is_pinned, r.is_favorite⟩

def setSummary (r : MetaRec) (v : Option String) : MetaRec :=
  ⟨r.created_at, r.modified_at, v, r.is_pinned, r.is_favorite⟩

def setPinned (r : MetaRec) (v : Option Bool) : MetaRec :=
  ⟨r.created_at, r.modified_at, r.summary, v, r.is_favorite⟩

def setFavorite (r : MetaRec) (v : Option Bool) : MetaRec :=
  ⟨r.created_at, r.modified_at, r.summary, r.is_pinned, v⟩

/-- `NoteManager.save_note` (windnote.py:410-420). -/
def save_note (s : NMState) (p content : String) (now : Nat) : NMState :=
  let m1 :=
    if (mlookup s.metadata p).isSome then s.metadata
    else dictSet s.metadata p ⟨some now, none, none, some false, some false⟩
  let r1 := (mlookup m1 p).getD emptyRec
  let m2 := dictSet m1 p (setModified r1 (some now))
  let r2 := (mlookup m2 p).getD emptyRec
  let m3 :=
    if truthyS r2.summary then m2
    else dictSet m2 p (setSummary r2 (some (autoSummary content)))
  ⟨fsWrite s.fs p content now, m3⟩

/-- `NoteManager.update_summary` (windnote.py:422-426). -/
def update_summary (s : NMState) (p summary : String) : NMState :=
  match mlookup s.metadata p with
  | some r => ⟨s.fs, dictSet s.metadata p (setSummary r (some summary))⟩
  | none => s

/-- `NoteManager.toggle_pinned` (windnote.py:428-432). -/
def toggle_pinned (s : NMState) (p : String) : NMState :=
  match mlookup s.metadata p with
  | some r => ⟨s.fs, dictSet s.metadata p (setPinned r (some (!(r.is_pinned.getD false))))⟩
  | none => s

/-- `NoteManager.toggle_favorite` (windnote.py:434-438). -/
def toggle_favorite (s : NMState) (p : String) : NMState :=
  match mlookup s.metadata p with
  | some r => ⟨s.fs, dictSet s.metadata p (setFavorite r (some (!(r.is_favorite.getD false))))⟩
  | none => s

/-- `NoteManager.create_item` (windnote.py:440-448).  Returns `none` for
the `already exists` failure, otherwise the created path. -/
def create_item (s : NMState) (parentDir name : String) (isFolder : Bool)
    (content : Option String) (now : Nat) : Option String × NMState :=
  if fsExists s.fs (joinRel parentDir name) then (none, s)
  else if isFolder then
    (some (joinRel parentDir name), ⟨fsMkdir s.fs (joinRel parentDir name) now, s.metadata⟩)
  else
    (some (joinRel parentDir name),
     save_note s (joinRel parentDir name)
       (content.getD ("# " ++ splitExtRoot name ++ "\n")) now)

/-- `NoteManager.delete_item` (windnote.py:450-459).  Note the folder
branch purges every metadata key with the deleted path as a RAW string
prefix (`p.startswith(rel_path_prefix)`, not anchored at a separator).
`none` models the `OSError` of `os.remove` on a missing path. -/
def delete_item (s : NMState) (p : String) : Option NMState :=
  match s.fs p with
  | some e =>
    if e.isDir then
      some ⟨fsRmtree s.fs p,
            s.metadata.filter (fun kv => !(p.data.isPrefixOf kv.1.data))⟩
    else
      some ⟨fun q => if q = p then none else s.fs q, dictDel s.metadata p⟩
  | none => none

/-- `NoteManager.move_item` (windnote.py:461-476).  The first three
guards are the source's own checks.  The final guard models when
`shutil.move` itself can succeed: the source must exist, `shutil.move`
raises when the destination lies inside a source directory
(`Cannot move a directory into itself` / `ENOTDIR` below a file), and on
a real filesystem a destination strictly containing the source is an
existing non-empty ancestor directory, which the earlier
`os.path.exists(dest_path)` check has already ruled out. -/
def move_item (s : NMState) (sourcePath destDir : String) : Option String × NMState :=
  if !(isDirF s.fs destDir) then (none, s)
  else if fsExists s.fs (joinRel destDir (baseNameRel sourcePath)) then (none, s)
  else if !(fsExists s.fs sourcePath)
      || isUnder sourcePath (joinRel destDir (baseNameRel sourcePath))
      || isUnder (joinRel destDir (baseNameRel sourcePath)) sourcePath then (none, s)
  else
    (some (joinRel destDir (baseNameRel sourcePath)),
     ⟨fsMove s.fs sourcePath (joinRel destDir (baseNameRel sourcePath)),
      rewriteAll sourcePath (joinRel destDir (baseNameRel sourcePath)) s.metadata⟩)

/-- `NoteManager.rename_item` (windnote.py:478-494).  Guards as in the
source; the final guard models when `os.rename` itself can succeed,
exactly as for `move_item`. -/
def rename_item (s : NMState) (oldPath newName : String) : Option String × NMState :=
  if newName = "" then (none, s)
  else if fsExists s.fs (joinRel (dirNameRel oldPath) newName) then (none, s)
  else if !(fsExists s.fs oldPath)
      || isUnder oldPath (joinRel (dirNameRel oldPath) newName)
      || isUnder (joinRel (dirNameRel oldPath) newName) oldPath then (none, s)
  else
    (some (joinRel (dirNameRel oldPath) newName),
     ⟨fsMove s.fs oldPath (joinRel (dirNameRel oldPath) newName),
      rewriteAll oldPath (joinRel (dirNameRel oldPath) newName) s.metadata⟩)

/-- Python `str.split(sep)` with a one-character separator. -/
def pySplit (sep : Char) : List Char → List (List Char)
  | [] => [[]]
  | c :: cs =>
    if c = sep then [] :: pySplit sep cs
    else
      match pySplit sep cs with
      | [] => [[c]]
      | g :: gs => (c :: g) :: gs

/-- `urlparse(url).query`: the part after the first `?` of the
pre-fragment portion (the fragment starts at the first `#`). -/
def queryOf (url : String) : String :=
  let noFrag := url.data.takeWhile (fun c => c ≠ '#')
  match noFrag.dropWhile (fun c => c ≠ '?') with
  | [] => ""
  | _ :: rest => ⟨rest⟩

/-- The values `parse_qs(query)[key]` (default options: blank values
dropped, pairs without `=` dropped, separator `&`; percent-decoding is
omitted from the model). -/
def parseQsVals (query key : String) : List String :=
  (pySplit '&' query.data).filterMap (fun pair =>
    if pair.contains '=' then
      let nm := pair.takeWhile (fun c => c ≠ '=')
      let vl := (pair.dropWhile (fun c => c ≠ '=')).drop 1
      if nm = key.data ∧ vl ≠ [] then some (⟨vl⟩ : String) else none
    else none)

/-- The extension detection of `BaseConverter._download_image`
(windnote.py:541-544): `qs.get('wx_fmt', ['jpeg'])[0] if 'wx_fmt' in qs
else url.split('.')[-1].split('?')[0]`, then forced to `jpg` when longer
than 4 characters. -/
def imgExt (url : String) : String :=
  let fmt : String :=
    match parseQsVals (queryOf url) "wx_fmt" with
    | f :: _ => f
    | [] => ⟨(pySplit '?' ((pySplit '.' url.data).getLastD [])).headD []⟩
  if fmt.length > 4 then "jpg" else fmt

/-- The environment of the image fetcher: outcome of the whole
`requests.get` / `raise_for_status` / file-write pipeline per URL, the
`datetime.now().strftime('%Y%m%d%H%M%S%f')` stamp of the n-th download
call, and `urllib.parse.urljoin`. -/
structure DLEnv where
  fetchOk : String → Bool
  stamp : Nat → String
  urljoinF : String → String → String

/-- The generated local filename `f"{stamp}.{ext}"`. -/
def genFilename (env : DLEnv) (n : Nat) (url : String) : String :=
  env.stamp n ++ "." ++ imgExt url

/-- `BaseConverter._download_image` (windnote.py:539-554): the whole body
sits in a `try`, the `except` returns `None`, so any failure in the
pipeline yields `none` and nothing is raised. -/
def download_image (env : DLEnv) (n : Nat) (url : String) : Option String :=
  if env.fetchOk url then some (genFilename env n url) else none

/-- An HTML node as seen by BeautifulSoup: a text fragment or an element
with tag name, attributes and children. -/
inductive HNode where
  | txt (s : String) : HNode
  | elem (tag : String) (attrs : List (String × String)) (children : List HNode) : HNode

/-- Attribute lookup `tag.get(name)`. -/
def attrGet : List (String × String) → String → Option String
  | [], _ => none
  | (k, v) :: rest, q => if q = k then some v else attrGet rest q

/-- Python `str.split()` with no argument: split on whitespace runs. -/
def pySplitWs (s : String) : List String :=
  ((s.data.splitOnP (fun c => c = ' ' || c = '\t' || c = '\n' || c = '\r')).filter
    (fun g => g ≠ [])).map (fun g => (⟨g⟩ : String))

/-- BeautifulSoup `class_` matching: the multi-valued `class` attribute
contains the wanted class. -/
def hasClass (attrs : List (String × String)) (c : String) : Bool :=
  match attrGet attrs "class" with
  | some v => (pySplitWs v).contains c
  | none => false

/-- Whether an element node matches `soup.find(tag)` /
`soup.find(tag, class_=cls)`. -/
def tagMatches (want : String) (wantClass : Option String) : HNode → Bool
  | .txt _ => false
  | .elem t a _ =>
    t = want && (match wantClass with | none => true | some c => hasClass a c)

mutual

/-- `soup.find(...)`: first matching element in document (preorder)
order, or `None`. -/
def findFirstN (want : String) (wantClass : Option String) : HNode → Option HNode
  | .txt _ => none
  | .elem t a cs =>
    if tagMatches want wantClass (.elem t a cs) then some (.elem t a cs)
    else findFirstL want wantClass cs

def findFirstL (want : String) (wantClass : Option String) : List HNode → Option HNode
  | [] => none
  | n :: ns =>
    match findFirstN want wantClass n with
    | some r => some r
    | none => findFirstL want wantClass ns

end

mutual

/-- `tag.get_text(strip=True)`: concatenation of the stripped text
fragments below the node. -/
def getTextStrip : HNode → String
  | .txt s => s.trim
  | .elem _ _ cs => getTextStripL cs

def getTextStripL : List HNode → String
  | [] => ""
  | n :: ns => getTextStrip n ++ getTextStripL ns

end

/-- The characters removed by the title sanitiser
`re.sub(r'[\\/*?:"<>|]', "", title)`. -/
def illegalFilenameChar (c : Char) : Bool :=
  c = '\\' || c = '/' || c = '*' || c = '?' || c = ':' || c = '"' ||
  c = '<' || c = '>' || c = '|'

/-- Strip the filename-illegal characters from a title. -/
def sanitizeTitle (t : String) : String :=
  ⟨t.data.filter (fun c => !(illegalFilenameChar c))⟩

/-- The title computation of `BaseConverter._process_html`
(windnote.py:556-559): `soup.find('h1') or soup.find('h2',
class_='rich_media_title')`, its stripped text or `"Untitled Article"`,
then sanitised.  (bs4 `Tag.__bool__` is always `True`, so the Python
`or` is exactly `None`-coalescing.) -/
def extractTitle (doc : HNode) : String :=
  let titleTag :=
    match findFirstN "h1" none doc with
    | some tg => some tg
    | none => findFirstN "h2" (some "rich_media_title") doc
  sanitizeTitle (match titleTag with | some tg => getTextStrip tg | none => "Untitled Article")

/-- The effective image source `img_tag.get('data-src') or
img_tag.get('src')` followed by the `if not img_url` skip: the first
truthy (present and non-empty) of the two attributes. -/
def effImgUrl (attrs : List (String × String)) : Option String :=
  match attrGet attrs "data-src" with
  | some u => if u ≠ "" then some u else
      (match attrGet attrs "src" with
       | some v => if v ≠ "" then some v else none
       | none => none)
  | none =>
      match attrGet attrs "src" with
      | some v => if v ≠ "" then some v else none
      | none => none

/-- `img_url.startswith(('http://', 'https://'))`. -/
def httpAbs (u : String) : Bool :=
  "http://".data.isPrefixOf u.data || "https://".data.isPrefixOf u.data

/-- Resolution of the image URL against the page URL (absolute URLs are
kept, others go through `urljoin`). -/
def resolveUrl (env : DLEnv) (baseUrl u : String) : String :=
  if httpAbs u then u else env.urljoinF baseUrl u

/-- The body of the image loop of `BaseConverter._process_html`
(windnote.py:562-573) for one `<img>` element (`n` is the index of the
download call feeding the timestamped filename): on download success the
attributes are replaced by the local `src` and a generic `alt`; on
failure, or with no usable URL, the element is left untouched. -/
def processImg (env : DLEnv) (imagesDir baseUrl : String) (n : Nat) : HNode → HNode
  | .txt s => .txt s
  | .elem t attrs cs =>
    match effImgUrl attrs with
    | none => .elem t attrs cs
    | some u =>
      match download_image env n (resolveUrl env baseUrl u) with
      | none => .elem t attrs cs
      | some name =>
        .elem t [("src", baseNameRel imagesDir ++ "/" ++ name), ("alt", "image")] cs

/-- The image loop over `content_div.find_all('img')` in document order. -/
def processImgs (env : DLEnv) (imagesDir baseUrl : String) (n : Nat) :
    List HNode → List HNode
  | [] => []
  | img :: rest =>
    processImg env imagesDir baseUrl n img :: processImgs env imagesDir baseUrl (n + 1) rest

/-- Modelled from the spec (claim C9 wording): the `path` component of a
`scheme://authority/path?query#fragment` URL. -/
def urlPathOf (url : String) : String :=
  let noQ := (url.data.takeWhile (fun c => c ≠ '#')).takeWhile (fun c => c ≠ '?')
  let rec afterMark : List Char → Option (List Char)
    | ':' :: '/' :: '/' :: rest => some rest
    | _ :: rest => afterMark rest
    | [] => none
  match afterMark noQ with
  | some rest => ⟨rest.dropWhile (fun c => c ≠ '/')⟩
  | none => ⟨noQ⟩

/-- Modelled from the spec (claim C9 wording): the text after the last
dot of a string (the whole string when it has no dot). -/
def afterLastDot (s : String) : String :=
  ⟨(s.data.reverse.takeWhile (fun c => c ≠ '.')).reverse⟩

/-- Modelled from the spec (claim C9 wording): truncation at the first
`?`. -/
def chopAtQm (s : String) : String := ⟨s.data.takeWhile (fun c => c ≠ '?')⟩

/-- Modelled from the spec (claim C9 wording): the text after the last
dot of the URL's path component. -/
def claimPathSuffix (url : String) : String := afterLastDot (urlPathOf url)

/-! ### Generic facts about the rename/move key cascade -/

/-- A suffix that starts at a path-separator boundary (empty, or
beginning with `/`). -/
def AnchL (s : List Char) : Prop := s = [] ∨ ∃ t, s = '/' :: t

theorem string_eq_iff_data {s₁ s₂ : String} : s₁ = s₂ ↔ s₁.data = s₂.data :=
  ⟨fun h => h ▸ rfl, String.ext⟩

theorem movMatch_iff (old p : String) :
    movMatch old p = true ↔ ∃ s1, p.data = old.data ++ s1 ∧ AnchL s1 := by
  simp only [movMatch, Bool.or_eq_true, decide_eq_true_eq, isUnder,
    List.isPrefixOf_iff_prefix]
  constructor
  · rintro (h | ⟨t, ht⟩)
    · exact ⟨[], by simp [h], Or.inl rfl⟩
    · refine ⟨'/' :: t, ?_, Or.inr ⟨t, rfl⟩⟩
      rw [← ht]
      simp
  · rintro ⟨s1, hs, (rfl | ⟨t, rfl⟩)⟩
    · left
      exact String.ext (by simpa using hs)
    · right
      exact ⟨t, by simpa using hs.symm⟩

theorem replFirst_of_isPre (pat rep s : List Char) (h : pat.isPrefixOf s) :
    replFirst pat rep s = rep ++ s.drop pat.length := by
  cases s with
  | nil => simp [replFirst, h]
  | cons c cs => simp [replFirst, h]

theorem rwKey_data_of_match (old nw p : String) (s1 : List Char)
    (hs : p.data = old.data ++ s1) : (rwKey old nw p).data = nw.data ++ s1 := by
  simp [rwKey, hs, List.drop_left]

theorem pyReplaceFirst_eq_rwKey (old nw p : String) (h : movMatch old p = true) :
    pyReplaceFirst p old nw = rwKey old nw p := by
  obtain ⟨s1, hs, _⟩ := (movMatch_iff old p).mp h
  have hpre : old.data.isPrefixOf p.data :=
    List.isPrefixOf_iff_prefix.mpr ⟨s1, hs.symm⟩
  apply String.ext
  simp [pyReplaceFirst, replFirst_of_isPre _ _ _ hpre, rwKey]

theorem rwKey_inj (old nw : String) {p q : String}
    (hp : movMatch old p = true) (hq : movMatch old q = true)
    (h : rwKey old nw p = rwKey old nw q) : p = q := by
  obtain ⟨s1, hs1, _⟩ := (movMatch_iff old p).mp hp
  obtain ⟨s2, hs2, _⟩ := (movMatch_iff old q).mp hq
  have hd := congrArg String.data h
  rw [rwKey_data_of_match old nw p s1 hs1, rwKey_data_of_match old nw q s2 hs2] at hd
  have hss : s1 = s2 := List.append_cancel_left hd
  exact String.ext (by rw [hs1, hs2, hss])

theorem rwKey_ne_self (old nw : String) (hne : nw ≠ old) {p : String}
    (hp : movMatch old p = true) : rwKey old nw p ≠ p := by
  obtain ⟨s1, hs1, _⟩ := (movMatch_iff old p).mp hp
  intro h
  have hd := congrArg String.data h
  rw [rwKey_data_of_match old nw p s1 hs1, hs1] at hd
  have hlen := congrArg List.length hd
  simp only [List.length_append] at hlen
  have := List.append_inj hd (by omega)
  exact hne (String.ext this.1)

/-- Under the success conditions of `move_item` / `rename_item` (new and
old path distinct, neither strictly inside the other), the rewritten key
of a matched key never coincides with any matched key. -/
theorem rwKey_ne_of_match (old nw : String) (hne : nw ≠ old)
    (h1 : isUnder old nw = false) (h2 : isUnder nw old = false)
    {p q : String} (hp : movMatch old p = true) (hq : movMatch old q = true) :
    rwKey old nw p ≠ q := by
  obtain ⟨s1, hs1, ha1⟩ := (movMatch_iff old p).mp hp
  obtain ⟨s2, hs2, ha2⟩ := (movMatch_iff old q).mp hq
  intro heq
  have hd : nw.data ++ s1 = old.data ++ s2 := by
    have h' := congrArg String.data heq
    rwa [rwKey_data_of_match old nw p s1 hs1, hs2] at h'
  have hlen : nw.data.length + s1.length = old.data.length + s2.length := by
    have := congrArg List.length hd
    simpa using this
  rcases Nat.lt_trichotomy nw.data.length old.data.length with hlt | heqn | hgt
  · -- old = nw ++ nonempty `/`-anchored chunk: old strictly inside nw
    set k := old.data.length - nw.data.length with hk
    have hkpos : 0 < k := by omega
    have hks1 : k ≤ s1.length := by omega
    have hto : old.data = nw.data ++ s1.take k := by
      have h' := congrArg (List.take (nw.data.length + k)) hd
      rw [List.take_append] at h'
      have hnk : nw.data.length + k = old.data.length := by omega
      rw [hnk, List.take_left] at h'
      exact h'.symm
    rcases ha1 with rfl | ⟨t, rfl⟩
    · simp at hks1
      omega
    · obtain ⟨k', hk'⟩ : ∃ k', k = k' + 1 := ⟨k - 1, by omega⟩
      rw [hk', List.take_succ_cons] at hto
      have hu : isUnder nw old = true := by
        simp only [isUnder, List.isPrefixOf_iff_prefix]
        exact ⟨t.take k', by simp [hto]⟩
      rw [hu] at h2
      exact absurd h2 (by simp)
  · have := List.append_inj hd heqn
    exact hne (String.ext this.1)
  · -- nw = old ++ nonempty `/`-anchored chunk: nw strictly inside old
    set k := nw.data.length - old.data.length with hk
    have hkpos : 0 < k := by omega
    have hks2 : k ≤ s2.length := by omega
    have hto : nw.data = old.data ++ s2.take k := by
      have h' := congrArg (List.take (old.data.length + k)) hd.symm
      rw [List.take_append] at h'
      have hnk : old.data.length + k = nw.data.length := by omega
      rw [hnk, List.take_left] at h'
      exact h'.symm
    rcases ha2 with rfl | ⟨t, rfl⟩
    · simp at hks2
      omega
    · obtain ⟨k', hk'⟩ : ∃ k', k = k' + 1 := ⟨k - 1, by omega⟩
      rw [hk', List.take_succ_cons] at hto
      have hu : isUnder old nw = true := by
        simp only [isUnder, List.isPrefixOf_iff_prefix]
        exact ⟨t.take k', by simp [hto]⟩
      rw [hu] at h1
      exact absurd h1 (by simp)

theorem mlookup_some_mem {m : List (String × MetaRec)} {p : String} {r : MetaRec}
    (h : mlookup m p = some r) : p ∈ dkeys m := by
  induction m with
  | nil => simp [mlookup] at h
  | cons hd tl ih =>
    obtain ⟨k, v⟩ := hd
    by_cases hk : p = k
    · simp [dkeys, hk]
    · simp only [mlookup, if_neg hk] at h
      simpa [dkeys] using Or.inr (by simpa [dkeys] using ih h)

/-- Keys that are neither a matched key of the loop nor the rewrite
target of one are untouched by the whole loop. -/
theorem foldl_rewrite_frame (old nw : String) :
    ∀ (K : List String) (m : List (String × MetaRec)) (x : String),
      (∀ p ∈ K, movMatch old p = true → x ≠ p ∧ x ≠ pyReplaceFirst p old nw) →
      mlookup (K.foldl (rewriteStep old nw) m) x = mlookup m x := by
  intro K
  induction K with
  | nil =>
    intro m x _
    rfl
  | cons q K ih =>
    intro m x hx
    have hrest : ∀ p ∈ K, movMatch old p = true → x ≠ p ∧ x ≠ pyReplaceFirst p old nw :=
      fun p hp => hx p (List.mem_cons_of_mem q hp)
    rw [List.foldl_cons, ih _ _ hrest]
    unfold rewriteStep
    by_cases hm : movMatch old q = true
    · have hq := hx q (List.mem_cons_self q K) hm
      cases hv : mlookup m q with
      | none => simp [hm, hv]
      | some v =>
        simp only [hm, if_true, hv]
        rw [mlookup_dictSet_other _ _ _ _ hq.2, mlookup_dictDel_other _ _ _ hq.1]
    · simp [hm]

/-- After the loop, the rewritten key of a matched key of the dict holds
exactly the record that key held before. -/
theorem foldl_rewrite_moved (old nw : String) (hne : nw ≠ old)
    (h1 : isUnder old nw = false) (h2 : isUnder nw old = false) :
    ∀ (K : List String) (m : List (String × MetaRec)) (p : String) (v : MetaRec),
      K.Nodup → p ∈ K → movMatch old p = true → mlookup m p = some v →
      mlookup (K.foldl (rewriteStep old nw) m) (rwKey old nw p) = some v := by
  intro K
  induction K with
  | nil =>
    intro m p v _ hp
    simp at hp
  | cons q K ih =>
    intro m p v hnd hp hm hv
    rw [List.foldl_cons]
    rcases List.mem_cons.mp hp with rfl | hpK
    · have hstep : rewriteStep old nw m p = dictSet (dictDel m p) (pyReplaceFirst p old nw) v := by
        unfold rewriteStep
        simp [hm, hv]
      rw [hstep, foldl_rewrite_frame old nw K _ _ ?hx]
      · rw [← pyReplaceFirst_eq_rwKey old nw p hm]
        exact mlookup_dictSet_self _ _ _
      case hx =>
        intro r hr hmr
        constructor
        · exact rwKey_ne_of_match old nw hne h1 h2 hm hmr
        · rw [pyReplaceFirst_eq_rwKey old nw r hmr]
          intro hc
          have hpr := rwKey_inj old nw hm hmr hc
          exact (List.nodup_cons.mp hnd).1 (hpr ▸ hr)
    · have hqp : q ≠ p := by
        intro h
        exact (List.nodup_cons.mp hnd).1 (h ▸ hpK)
      apply ih (rewriteStep old nw m q) p v (List.nodup_cons.mp hnd).2 hpK hm
      unfold rewriteStep
      by_cases hmq : movMatch old q = true
      · cases hvq : mlookup m q with
        | none => simpa [hmq, hvq] using hv
        | some w =>
          simp only [hmq, if_true, hvq]
          rw [mlookup_dictSet_other, mlookup_dictDel_other]
          · exact hv
          · exact hqp.symm
          · rw [pyReplaceFirst_eq_rwKey old nw q hmq]
            exact (rwKey_ne_of_match old nw hne h1 h2 hmq hm).symm
      · simpa [hmq] using hv

/-- After the loop, every matched key of the dict is gone. -/
theorem foldl_rewrite_popped (old nw : String) (hne : nw ≠ old)
    (h1 : isUnder old nw = false) (h2 : isUnder nw old = false) :
    ∀ (K : List String) (m : List (String × MetaRec)) (p : String),
      K.Nodup → p ∈ K → movMatch old p = true →
      mlookup (K.foldl (rewriteStep old nw) m) p = none := by
  intro K
  induction K with
  | nil =>
    intro m p _ hp
    simp at hp
  | cons q K ih =>
    intro m p hnd hp hm
    rw [List.foldl_cons]
    rcases List.mem_cons.mp hp with rfl | hpK
    · rw [foldl_rewrite_frame old nw K _ p ?hx]
      · unfold rewriteStep
        cases hv : mlookup m p with
        | none => simp [hm, hv]
        | some v =>
          simp only [hm, if_true, hv]
          rw [mlookup_dictSet_other, mlookup_dictDel_self]
          rw [pyReplaceFirst_eq_rwKey old nw p hm]
          exact (rwKey_ne_self old nw hne hm).symm
      case hx =>
        intro r hr hmr
        constructor
        · intro h
          exact (List.nodup_cons.mp hnd).1 (h ▸ hr)
        · rw [pyReplaceFirst_eq_rwKey old nw r hmr]
          exact (rwKey_ne_of_match old nw hne h1 h2 hmr hm).symm
    · exact ih (rewriteStep old nw m q) p (List.nodup_cons.mp hnd).2 hpK hm

theorem rewriteAll_moved (old nw : String) (hne : nw ≠ old)
    (h1 : isUnder old nw = false) (h2 : isUnder nw old = false)
    (m : List (String × MetaRec)) (hnd : (dkeys m).Nodup)
    {p : String} {v : MetaRec} (hm : movMatch old p = true)
    (hv : mlookup m p = some v) :
    mlookup (rewriteAll old nw m) (rwKey old nw p) = some v :=
  foldl_rewrite_moved old nw hne h1 h2 (dkeys m) m p v hnd (mlookup_some_mem hv) hm hv

theorem rewriteAll_popped (old nw : String) (hne : nw ≠ old)
    (h1 : isUnder old nw = false) (h2 : isUnder nw old = false)
    (m : List (String × MetaRec)) (hnd : (dkeys m).Nodup)
    {p : String} (hm : movMatch old p = true) (hmem : p ∈ dkeys m) :
    mlookup (rewriteAll old nw m) p = none :=
  foldl_rewrite_popped old nw hne h1 h2 (dkeys m) m p hnd hmem hm

theorem rwKey_self (old nw : String) : rwKey old nw old = nw :=
  String.ext (by simp [rwKey, List.drop_length])

theorem fsMove_at_dst (fs : FSFun) (src dst : String) (hne : dst ≠ src)
    (h1 : isUnder src dst = false) : fsMove fs src dst dst = fs src := by
  simp [fsMove, hne, h1]

theorem move_item_inv {s : NMState} {src dd np : String} {s' : NMState}
    (h : move_item s src dd = (some np, s')) :
    np = joinRel dd (baseNameRel src) ∧
    fsExists s.fs np = false ∧ fsExists s.fs src = true ∧
    isUnder src np = false ∧ isUnder np src = false ∧
    s'.metadata = rewriteAll src np s.metadata ∧ s'.fs = fsMove s.fs src np := by
  unfold move_item at h
  cases c1 : isDirF s.fs dd
  · rw [c1] at h
    simp at h
  · rw [c1] at h
    simp only [Bool.not_true, Bool.false_eq_true, if_false] at h
    cases c2 : fsExists s.fs (joinRel dd (baseNameRel src))
    · rw [c2] at h
      simp only [Bool.false_eq_true, if_false] at h
      cases c3 : (!(fsExists s.fs src) || isUnder src (joinRel dd (baseNameRel src))
          || isUnder (joinRel dd (baseNameRel src)) src)
      · rw [c3] at h
        simp only [Bool.false_eq_true, if_false, Prod.mk.injEq] at h
        obtain ⟨hnp, hs'⟩ := h
        obtain ⟨hsrc, hu1, hu2⟩ : fsExists s.fs src = true ∧
            isUnder src (joinRel dd (baseNameRel src)) = false ∧
            isUnder (joinRel dd (baseNameRel src)) src = false := by
          cases h4 : fsExists s.fs src <;> cases h5 : isUnder src (joinRel dd (baseNameRel src)) <;>
            cases h6 : isUnder (joinRel dd (baseNameRel src)) src <;>
              simp [h4, h5, h6] at c3 ⊢
        have hnp' : np = joinRel dd (baseNameRel src) := (Option.some.inj hnp).symm
        subst hnp'
        exact ⟨rfl, c2, hsrc, hu1, hu2, by rw [← hs'], by rw [← hs']⟩
      · rw [c3] at h
        simp at h
    · rw [c2] at h
      simp at h

theorem rename_item_inv {s : NMState} {old nn np : String} {s' : NMState}
    (h : rename_item s old nn = (some np, s')) :
    np = joinRel (dirNameRel old) nn ∧
    fsExists s.fs np = false ∧ fsExists s.fs old = true ∧
    isUnder old np = false ∧ isUnder np old = false ∧
    s'.metadata = rewriteAll old np s.metadata ∧ s'.fs = fsMove s.fs old np := by
  unfold rename_item at h
  by_cases c0 : nn = ""
  · rw [if_pos c0] at h
    simp at h
  · rw [if_neg c0] at h
    cases c2 : fsExists s.fs (joinRel (dirNameRel old) nn)
    · rw [c2] at h
      simp only [Bool.false_eq_true, if_false] at h
      cases c3 : (!(fsExists s.fs old) || isUnder old (joinRel (dirNameRel old) nn)
          || isUnder (joinRel (dirNameRel old) nn) old)
      · rw [c3] at h
        simp only [Bool.false_eq_true, if_false, Prod.mk.injEq] at h
        obtain ⟨hnp, hs'⟩ := h
        obtain ⟨hsrc, hu1, hu2⟩ : fsExists s.fs old = true ∧
            isUnder old (joinRel (dirNameRel old) nn) = false ∧
            isUnder (joinRel (dirNameRel old) nn) old = false := by
          cases h4 : fsExists s.fs old <;> cases h5 : isUnder old (joinRel (dirNameRel old) nn) <;>
            cases h6 : isUnder (joinRel (dirNameRel old) nn) old <;>
              simp [h4, h5, h6] at c3 ⊢
        have hnp' : np = joinRel (dirNameRel old) nn := (Option.some.inj hnp).symm
        subst hnp'
        exact ⟨rfl, c2, hsrc, hu1, hu2, by rw [← hs'], by rw [← hs']⟩
      · rw [c3] at h
        simp at h
    · rw [c2] at h
      simp at h

/-- C1: For every successful `move(source, dest_dir)` or
`rename(path, new_name)`, every metadata-map key equal to the old
relative path or a descendant of it (prefix match anchored on a
path-separator boundary) is rewritten to the corresponding new relative
path, the rewritten key maps to exactly the record the old key held
before, the old key itself no longer resolves; and in particular
`rename(old, new)` followed by `get_metadata(new)` returns the identical
record previously reported at `old`. -/
theorem C1_move_rename_cascade (s : NMState) (hnd : (dkeys s.metadata).Nodup) :
    (∀ src dd np s', move_item s src dd = (some np, s') →
       ∀ p r, movMatch src p = true → mlookup s.metadata p = some r →
         mlookup s'.metadata (rwKey src np p) = some r ∧
         mlookup s'.metadata p = none) ∧
    (∀ old nn np s', rename_item s old nn = (some np, s') →
       ∀ p r, movMatch old p = true → mlookup s.metadata p = some r →
         mlookup s'.metadata (rwKey old np p) = some r ∧
         mlookup s'.metadata p = none) ∧
    (∀ old nn np s' r, rename_item s old nn = (some np, s') →
       mlookup s.metadata old = some r →
       get_item_metadata s' np = get_item_metadata s old) := by
  have core : ∀ (np src : String) (meta' : List (String × MetaRec)),
      meta' = rewriteAll src np s.metadata →
      fsExists s.fs np = false → fsExists s.fs src = true →
      isUnder src np = false → isUnder np src = false →
      ∀ p r, movMatch src p = true → mlookup s.metadata p = some r →
        mlookup meta' (rwKey src np p) = some r ∧ mlookup meta' p = none := by
    intro np src meta' hmeta hex hsrc hu1 hu2 p r hm hv
    have hne : np ≠ src := by
      intro hq
      rw [hq, hsrc] at hex
      exact absurd hex (by simp)
    subst hmeta
    exact ⟨rewriteAll_moved src np hne hu1 hu2 s.metadata hnd hm hv,
           rewriteAll_popped src np hne hu1 hu2 s.metadata hnd hm (mlookup_some_mem hv)⟩
  refine ⟨?_, ?_, ?_⟩
  · intro src dd np s' h p r hm hv
    obtain ⟨_, hex, hsrc, hu1, hu2, hmeta, _⟩ := move_item_inv h
    exact core np src s'.metadata hmeta hex hsrc hu1 hu2 p r hm hv
  · intro old nn np s' h p r hm hv
    obtain ⟨_, hex, hsrc, hu1, hu2, hmeta, _⟩ := rename_item_inv h
    exact core np old s'.metadata hmeta hex hsrc hu1 hu2 p r hm hv
  · intro old nn np s' r h hv
    obtain ⟨_, hex, hsrc, hu1, hu2, hmeta, hfs⟩ := rename_item_inv h
    have hne : np ≠ old := by
      intro hq
      rw [hq, hsrc] at hex
      exact absurd hex (by simp)
    have hmm : movMatch old old = true := by simp [movMatch]
    have hmain := core np old s'.metadata hmeta hex hsrc hu1 hu2 old r hmm hv
    have hkey : mlookup s'.metadata np = some r := by
      have h' := hmain.1
      rwa [rwKey_self] at h'
    have hfs' : s'.fs np = s.fs old := by
      rw [hfs]
      exact fsMove_at_dst s.fs old np hne hu1
    obtain ⟨e, he⟩ : ∃ e, s.fs old = some e := by
      cases hcase : s.fs old with
      | none => simp [fsExists, hcase] at hsrc
      | some e => exact ⟨e, rfl⟩
    unfold get_item_metadata
    rw [hfs', he, hkey, hv]

/-- A concrete state for the claim witnesses: directory `d`, directory
`f` holding the note `f/a.md` with a full metadata record. -/
def fsW1 : FSFun := fun q =>
  if q = "d" then some ⟨true, 0, 0, ""⟩
  else if q = "f" then some ⟨true, 0, 0, ""⟩
  else if q = "f/a.md" then some ⟨false, 1, 2, "x"⟩
  else none

def rW1 : MetaRec := ⟨some 1, some 2, some "s", some false, some false⟩

def sW1 : NMState := ⟨fsW1, [("f/a.md", rW1)]⟩

theorem C1_witness :
    mlookup (move_item sW1 "f" "d").2.metadata (rwKey "f" "d/f" "f/a.md") = some rW1 ∧
    mlookup (move_item sW1 "f" "d").2.metadata "f/a.md" = none := by
  have h : move_item sW1 "f" "d" = (some "d/f", (move_item sW1 "f" "d").2) := by
    have h1 : (move_item sW1 "f" "d").1 = some "d/f" := by decide
    exact Prod.ext h1 rfl
  exact (C1_move_rename_cascade sW1 (by decide)).1 "f" "d" "d/f"
    (move_item sW1 "f" "d").2 h "f/a.md" rW1 (by decide) (by decide)

theorem mlookup_filter_key (m : List (String × MetaRec)) (g : String → Bool) (q : String) :
    mlookup (m.filter (fun kv => g kv.1)) q = if g q = true then mlookup m q else none := by
  induction m with
  | nil => cases hg : g q <;> simp [mlookup, hg]
  | cons hd tl ih =>
    obtain ⟨k, v⟩ := hd
    rw [List.filter_cons]
    by_cases hk : q = k
    · subst hk
      cases hg : g q <;> simp [hg, mlookup, ih]
    · cases hgk : g k <;> cases hg : g q <;> simp [hgk, hg, mlookup, hk, ih]

/-- A concrete state showing the raw-prefix purge of `delete_item`:
folder `foo` with one note inside, next to the unrelated sibling note
`foobar.md` whose name merely shares the string prefix `foo`. -/
def fsC2 : FSFun := fun q =>
  if q = "foo" then some ⟨true, 0, 0, ""⟩
  else if q = "foo/a.md" then some ⟨false, 0, 0, ""⟩
  else if q = "foobar.md" then some ⟨false, 0, 0, ""⟩
  else none

def rC2 : MetaRec := ⟨some 3, some 4, some "keep", some false, some true⟩

def sC2 : NMState := ⟨fsC2, [("foo/a.md", emptyRec), ("foobar.md", rC2)]⟩

/-- C2 counterexample: deleting the folder `foo` also deletes the record
of the sibling note `foobar.md`, whose key is neither `foo` nor a
descendant of `foo` — the cascade touches more than the folder and its
descendants, refuting the frame part of the claim. -/
theorem C2_counterexample :
    movMatch "foo" "foobar.md" = false ∧
    mlookup sC2.metadata "foobar.md" = some rC2 ∧
    mlookup ((delete_item sC2 "foo").getD sC2).metadata "foobar.md" = none := by
  decide

/-- C2 (amended): deleting a folder purges exactly the metadata keys
having the folder's relative path as a raw string prefix — so the folder
key and all descendant keys are removed (no orphaned entries), but
sibling keys sharing the bare name prefix are removed as well; every key
without that string prefix keeps exactly its record. -/
theorem C2_delete_folder_purges_prefix_keys (s : NMState) (p : String) (e : FSEntry)
    (he : s.fs p = some e) (hd : e.isDir = true) (q : String) :
    (p.data.isPrefixOf q.data = true →
       mlookup ((delete_item s p).getD s).metadata q = none) ∧
    (p.data.isPrefixOf q.data = false →
       mlookup ((delete_item s p).getD s).metadata q = mlookup s.metadata q) := by
  have hdel : (delete_item s p).getD s =
      ⟨fsRmtree s.fs p, s.metadata.filter (fun kv => !(p.data.isPrefixOf kv.1.data))⟩ := by
    unfold delete_item
    rw [he]
    simp [hd]
  rw [hdel]
  constructor
  · intro hq
    rw [mlookup_filter_key s.metadata (fun k => !(p.data.isPrefixOf k.data)) q]
    simp [hq]
  · intro hq
    rw [mlookup_filter_key s.metadata (fun k => !(p.data.isPrefixOf k.data)) q]
    simp [hq]

theorem C2_witness :
    mlookup ((delete_item sC2 "foo").getD sC2).metadata "foo/a.md" = none ∧
    mlookup ((delete_item sC2 "foo").getD sC2).metadata "zzz.md" = mlookup sC2.metadata "zzz.md" :=
  ⟨(C2_delete_folder_purges_prefix_keys sC2 "foo" ⟨true, 0, 0, ""⟩ (by decide) rfl
      "foo/a.md").1 (by decide),
   (C2_delete_folder_purges_prefix_keys sC2 "foo" ⟨true, 0, 0, ""⟩ (by decide) rfl
      "zzz.md").2 (by decide)⟩

/-- The empty notes root: no files, no metadata. -/
def sC3 : NMState := ⟨fun _ => none, []⟩

/-- C3 counterexample: for a path that was never saved or created and
does not exist on the filesystem, `get_item_metadata` does not return a
default record — `os.path.getctime` raises `OSError` (modelled `none`),
refuting the never-raises part of the claim. -/
theorem C3_counterexample :
    mlookup sC3.metadata "ghost.md" = none ∧ get_item_metadata sC3 "ghost.md" = none := by
  decide

/-- C3 (amended): for every path that exists on the filesystem and has
no metadata record, `get_item_metadata` returns — without raising — a
record with both flags false, empty summary, and `created_at` /
`modified_at` taken from the OS file timestamps; for a path that does
not exist on the filesystem it raises instead. -/
theorem C3_get_metadata_defaults (s : NMState) (p : String) (e : FSEntry)
    (he : s.fs p = some e) (hm : mlookup s.metadata p = none) :
    get_item_metadata s p = some ⟨e.ctime, e.mtime, "", false, false⟩ := by
  unfold get_item_metadata
  rw [he, hm]
  rfl

theorem C3_witness : get_item_metadata sW1 "d" = some ⟨0, 0, "", false, false⟩ :=
  C3_get_metadata_defaults sW1 "d" ⟨true, 0, 0, ""⟩ (by decide) (by decide)

theorem autoSummary_ne_empty (t : String) : autoSummary t ≠ "" := by
  intro h
  have hd := congrArg String.data h
  rw [show (autoSummary t).data
      = ((t.data.take 100).map (fun c => if c = '\n' then ' ' else c)) ++ ['.', '.', '.'] from rfl] at hd
  simp at hd

theorem save_note_fresh_lookup (s : NMState) (p t : String) (now : Nat)
    (hfresh : mlookup s.metadata p = none) :
    mlookup (save_note s p t now).metadata p
      = some ⟨some now, some now, some (autoSummary t), some false, some false⟩ := by
  unfold save_note
  rw [hfresh]
  simp only [Option.isSome_none, Bool.false_eq_true, if_false, mlookup_dictSet_self,
    Option.getD_some, setModified, setSummary, truthyS]

theorem save_note_saved_lookup (s : NMState) (p t : String) (now : Nat) (r : MetaRec)
    (hr : mlookup s.metadata p = some r) (hs : truthyS r.summary = true) :
    mlookup (save_note s p t now).metadata p = some (setModified r (some now)) := by
  unfold save_note
  rw [hr]
  simp only [Option.isSome_some, if_true]
  rw [hr]
  simp only [Option.getD_some, mlookup_dictSet_self]
  have hs' : truthyS (setModified r (some now)).summary = true := by
    simpa [setModified] using hs
  simp [hs', mlookup_dictSet_self]

theorem save_note_nosummary_lookup (s : NMState) (p t : String) (now : Nat) (r : MetaRec)
    (hr : mlookup s.metadata p = some r) (hs : truthyS r.summary = false) :
    mlookup (save_note s p t now).metadata p
      = some (setSummary (setModified r (some now)) (some (autoSummary t))) := by
  unfold save_note
  rw [hr]
  simp only [Option.isSome_some, if_true]
  rw [hr]
  simp only [Option.getD_some, mlookup_dictSet_self]
  have hs' : truthyS (setModified r (some now)).summary = false := by
    simpa [setModified] using hs
  simp [hs', mlookup_dictSet_self]

/-- C4: the first `save` of a fresh path sets `created_at` (and
`modified_at`) to the first instant; a second save leaves `created_at`
unchanged and updates `modified_at` to the later-or-equal second
instant. -/
theorem C4_save_twice_timestamps (s : NMState) (p t1 t2 : String) (now1 now2 : Nat)
    (hfresh : mlookup s.metadata p = none) (hmono : now1 ≤ now2) :
    ((mlookup (save_note s p t1 now1).metadata p).getD emptyRec).created_at = some now1 ∧
    ((mlookup (save_note s p t1 now1).metadata p).getD emptyRec).modified_at = some now1 ∧
    ((mlookup (save_note (save_note s p t1 now1) p t2 now2).metadata p).getD
        emptyRec).created_at = some now1 ∧
    ((mlookup (save_note (save_note s p t1 now1) p t2 now2).metadata p).getD
        emptyRec).modified_at = some now2 ∧
    now1 ≤ now2 := by
  have h1 := save_note_fresh_lookup s p t1 now1 hfresh
  have h2 := save_note_saved_lookup (save_note s p t1 now1) p t2 now2
    ⟨some now1, some now1, some (autoSummary t1), some false, some false⟩ h1
    (by simp [truthyS, autoSummary_ne_empty t1])
  rw [h1, h2]
  exact ⟨rfl, rfl, rfl, rfl, hmono⟩

theorem C4_witness :
    ((mlookup (save_note sC3 "n.md" "one" 5).metadata "n.md").getD emptyRec).created_at
      = some 5 ∧
    ((mlookup (save_note sC3 "n.md" "one" 5).metadata "n.md").getD emptyRec).modified_at
      = some 5 ∧
    ((mlookup (save_note (save_note sC3 "n.md" "one" 5) "n.md" "two" 8).metadata
        "n.md").getD emptyRec).created_at = some 5 ∧
    ((mlookup (save_note (save_note sC3 "n.md" "one" 5) "n.md" "two" 8).metadata
        "n.md").getD emptyRec).modified_at = some 8 ∧
    5 ≤ 8 :=
  C4_save_twice_timestamps sC3 "n.md" "one" "two" 5 8 (by decide) (by decide)

/-- C5: `save(p, text)` derives the stored summary from the first 100
characters of `text` (newlines replaced by spaces, `...` appended)
exactly when no non-empty summary is currently set for `p`; a set
summary is left unchanged by `save`. -/
theorem C5_save_summary (s : NMState) (p t : String) (now : Nat) :
    (∀ r str, mlookup s.metadata p = some r → r.summary = some str → str ≠ "" →
       ((mlookup (save_note s p t now).metadata p).getD emptyRec).summary = some str) ∧
    (truthyS ((mlookup s.metadata p).getD emptyRec).summary = false →
       ((mlookup (save_note s p t now).metadata p).getD emptyRec).summary
         = some (autoSummary t)) := by
  constructor
  · intro r str hr hsum hne
    rw [save_note_saved_lookup s p t now r hr (by simp [truthyS, hsum, hne])]
    simp [setModified, hsum]
  · intro hfal
    cases hr : mlookup s.metadata p with
    | none =>
      rw [save_note_fresh_lookup s p t now hr]
      rfl
    | some r =>
      rw [hr] at hfal
      simp only [Option.getD_some] at hfal
      rw [save_note_nosummary_lookup s p t now r hr hfal]
      rfl

theorem C5_witness :
    ((mlookup (save_note sW1 "f/a.md" "text" 7).metadata "f/a.md").getD emptyRec).summary
      = some "s" ∧
    ((mlookup (save_note sW1 "b.md" "hello" 7).metadata "b.md").getD emptyRec).summary
      = some (autoSummary "hello") :=
  ⟨(C5_save_summary sW1 "f/a.md" "text" 7).1 rW1 "s" (by decide) (by decide) (by decide),
   (C5_save_summary sW1 "b.md" "hello" 7).2 (by decide)⟩

/-- C6: when an entry already exists at the target path,
`create_item` — and with it both import paths, which terminate in
`create_item` — fails (returns the `already exists` failure) and leaves
the state completely untouched: the existing note's file content and
metadata record are preserved, and the new content is discarded. -/
theorem C6_create_existing_fails (s : NMState) (parentDir name : String)
    (isFolder : Bool) (content : Option String) (now : Nat)
    (hex : fsExists s.fs (joinRel parentDir name) = true) :
    create_item s parentDir name isFolder content now = (none, s) := by
  unfold create_item
  rw [hex]
  simp

theorem C6_witness : create_item sW1 "f" "a.md" false (some "other content") 9 = (none, sW1) :=
  C6_create_existing_fails sW1 "f" "a.md" false (some "other content") 9 (by decide)

theorem sanitizeTitle_no_illegal (t : String) (c : Char)
    (hc : c ∈ (sanitizeTitle t).data) : illegalFilenameChar c = false := by
  have hmem : c ∈ t.data.filter (fun x => !(illegalFilenameChar x)) := hc
  have := (List.mem_filter.mp hmem).2
  simpa using this

/-- C7: the extractor's title is the stripped text of the first
first-level heading when one exists, else the stripped text of the
designated rich-content heading (`<h2 class="rich_media_title">`), else
exactly `"Untitled Article"`; and the returned title never contains any
of the characters `\ / * ? : " < > |` (they are stripped), e.g.
sanitising `"Report: Q1/Q2?"` yields `"Report Q1Q2"`. -/
theorem C7_title_selection (doc : HNode) :
    (∀ tg, findFirstN "h1" none doc = some tg →
       extractTitle doc = sanitizeTitle (getTextStrip tg)) ∧
    (findFirstN "h1" none doc = none →
       ∀ tg, findFirstN "h2" (some "rich_media_title") doc = some tg →
         extractTitle doc = sanitizeTitle (getTextStrip tg)) ∧
    (findFirstN "h1" none doc = none →
       findFirstN "h2" (some "rich_media_title") doc = none →
       extractTitle doc = "Untitled Article") ∧
    (∀ c, c ∈ (extractTitle doc).data → illegalFilenameChar c = false) ∧
    sanitizeTitle "Report: Q1/Q2?" = "Report Q1Q2" := by
  refine ⟨?_, ?_, ?_, ?_, by decide⟩
  · intro tg h
    unfold extractTitle
    rw [h]
  · intro h1 tg h2
    unfold extractTitle
    rw [h1, h2]
  · intro h1 h2
    unfold extractTitle
    rw [h1, h2]
    decide
  · intro c hc
    unfold extractTitle at hc
    exact sanitizeTitle_no_illegal _ c hc

def docW : HNode := .elem "html" [] [.elem "body" [] [.elem "h1" [] [.txt " A/B "]]]

theorem C7_witness :
    extractTitle docW = sanitizeTitle (getTextStrip (HNode.elem "h1" [] [HNode.txt " A/B "])) :=
  (C7_title_selection docW).1 (HNode.elem "h1" [] [HNode.txt " A/B "]) rfl

/-- C8: the image fetcher returns the generated filename on success and
`None` on any pipeline failure without raising; when the download of an
image inside the content root fails, the rewriting loop leaves that
`<img>` element exactly as it was (original attributes preserved) and
continues with the remaining images — each list element is processed
independently, and the list length is preserved. -/
theorem C8_image_failure_nonfatal :
    (∀ (env : DLEnv) (n : Nat) (url : String),
       (env.fetchOk url = false → download_image env n url = none) ∧
       (env.fetchOk url = true → download_image env n url = some (genFilename env n url))) ∧
    (∀ (env : DLEnv) (d b : String) (n : Nat) (t : String)
       (attrs : List (String × String)) (cs : List HNode) (u : String),
       effImgUrl attrs = some u → env.fetchOk (resolveUrl env b u) = false →
       processImg env d b n (.elem t attrs cs) = .elem t attrs cs) ∧
    (∀ (env : DLEnv) (d b : String) (n : Nat) (imgs : List HNode),
       (processImgs env d b n imgs).length = imgs.length ∧
       ∀ i, (processImgs env d b n imgs).get? i
          = (imgs.get? i).map (processImg env d b (n + i))) := by
  refine ⟨?_, ?_, ?_⟩
  · intro env n url
    constructor
    · intro h
      simp [download_image, h]
    · intro h
      simp [download_image, h]
  · intro env d b n t attrs cs u heff hfail
    have hdl : download_image env n (resolveUrl env b u) = none := by
      simp [download_image, hfail]
    unfold processImg
    simp only [heff, hdl]
  · intro env d b n imgs
    induction imgs generalizing n with
    | nil =>
      refine ⟨rfl, ?_⟩
      intro i
      cases i <;> rfl
    | cons img rest ih =>
      refine ⟨by simpa [processImgs] using (ih (n + 1)).1, ?_⟩
      intro i
      cases i with
      | zero => simp [processImgs]
      | succ j =>
        have h := (ih (n + 1)).2 j
        have harith : n + 1 + j = n + (j + 1) := by omega
        simpa [processImgs, harith] using h

def envW : DLEnv :=
  ⟨fun u => !(u == "http://h/bad.png"), fun _ => "20240101000000000000", fun b u => b ++ u⟩

theorem C8_witness :
    processImg envW "MyNotes/images" "http://h/" 0
        (HNode.elem "img" [("src", "http://h/bad.png")] [])
      = HNode.elem "img" [("src", "http://h/bad.png")] [] :=
  C8_image_failure_nonfatal.2.1 envW "MyNotes/images" "http://h/" 0 "img"
    [("src", "http://h/bad.png")] [] "http://h/bad.png" rfl (by decide)

theorem pySplit_ne_nil (sep : Char) (s : List Char) : pySplit sep s ≠ [] := by
  cases s with
  | nil => simp [pySplit]
  | cons c cs =>
    by_cases h : c = sep
    · simp [pySplit, h]
    · simp only [pySplit, if_neg h]
      cases pySplit sep cs <;> simp

theorem takeWhile_append_last_false {p : Char → Bool} (l : List Char) (x : Char)
    (hx : p x = false) : (l ++ [x]).takeWhile p = l.takeWhile p := by
  induction l with
  | nil => simp [hx]
  | cons a t ih =>
    cases ha : p a
    · simp [List.takeWhile_cons, ha]
    · simp [List.takeWhile_cons, ha, ih]

theorem takeWhile_append_of_mem_false {p : Char → Bool} (l m : List Char) (c : Char)
    (hc : c ∈ l) (hp : p c = false) : (l ++ m).takeWhile p = l.takeWhile p := by
  induction l with
  | nil => simp at hc
  | cons a t ih =>
    cases ha : p a
    · simp [List.takeWhile_cons, ha]
    · rcases List.mem_cons.mp hc with rfl | hmem
      · rw [ha] at hp
        exact absurd hp (by simp)
      · simp [List.takeWhile_cons, ha, ih hmem]

theorem takeWhile_all {p : Char → Bool} (l : List Char)
    (h : ∀ x ∈ l, p x = true) : l.takeWhile p = l := by
  induction l with
  | nil => rfl
  | cons a t ih =>
    rw [List.takeWhile_cons, if_pos (h a (List.mem_cons_self a t))]
    rw [ih (fun x hx => h x (List.mem_cons_of_mem a hx))]

theorem pySplit_eq_singleton (sep : Char) (s g : List Char)
    (h : pySplit sep s = [g]) : g = s ∧ sep ∉ s := by
  induction s generalizing g with
  | nil =>
    simp only [pySplit] at h
    injection h with h1 _
    subst h1
    simp
  | cons c cs ih =>
    by_cases hc : c = sep
    · subst hc
      simp only [pySplit, if_pos rfl] at h
      have := congrArg List.tail h
      simp at this
      exact absurd this (pySplit_ne_nil c cs)
    · simp only [pySplit, if_neg hc] at h
      cases hcs : pySplit sep cs with
      | nil => exact absurd hcs (pySplit_ne_nil sep cs)
      | cons g' gs' =>
        rw [hcs] at h
        injection h with h1 h2
        obtain ⟨hg', hns⟩ := ih g' (h2 ▸ hcs)
        subst hg'
        refine ⟨h1.symm ▸ rfl, ?_⟩
        intro hmem
        rcases List.mem_cons.mp hmem with hs | hs
        · exact hc hs.symm
        · exact hns hs

theorem mem_of_pySplit_two (sep : Char) (s : List Char) (g g2 : List Char)
    (gs : List (List Char)) (h : pySplit sep s = g :: g2 :: gs) : sep ∈ s := by
  induction s generalizing g g2 gs with
  | nil =>
    simp only [pySplit] at h
    injection h with _ h2
    simp at h2
  | cons c cs ih =>
    by_cases hc : c = sep
    · subst hc
      exact List.mem_cons_self c cs
    · simp only [pySplit, if_neg hc] at h
      cases hcs : pySplit sep cs with
      | nil => exact absurd hcs (pySplit_ne_nil sep cs)
      | cons g' gs' =>
        rw [hcs] at h
        injection h with _ h2
        cases gs' with
        | nil => simp at h2
        | cons ga gb =>
          exact List.mem_cons_of_mem c (ih g' ga gb hcs)

theorem pySplit_headD (sep : Char) (s : List Char) :
    (pySplit sep s).headD [] = s.takeWhile (fun c => c ≠ sep) := by
  induction s with
  | nil => rfl
  | cons c cs ih =>
    by_cases h : c = sep
    · subst h
      simp [pySplit, List.takeWhile_cons]
    · simp only [pySplit, if_neg h]
      cases hc : pySplit sep cs with
      | nil => exact absurd hc (pySplit_ne_nil sep cs)
      | cons g gs =>
        rw [hc] at ih
        simp only [List.headD_cons] at ih
        simp [List.takeWhile_cons, h, ih]

theorem pySplit_getLastD (sep : Char) (s : List Char) :
    (pySplit sep s).getLastD []
      = (s.reverse.takeWhile (fun c => c ≠ sep)).reverse := by
  induction s with
  | nil => rfl
  | cons c cs ih =>
    by_cases h : c = sep
    · subst h
      have hsp : pySplit c (c :: cs) = [] :: pySplit c cs := by
        simp [pySplit]
      rw [hsp, List.getLastD_cons, ih, List.reverse_cons,
        takeWhile_append_last_false cs.reverse c (by simp)]
    · cases hc : pySplit sep cs with
      | nil => exact absurd hc (pySplit_ne_nil sep cs)
      | cons g gs =>
        have hsp : pySplit sep (c :: cs) = (c :: g) :: gs := by
          simp [pySplit, h, hc]
        rw [hsp]
        cases gs with
        | nil =>
          obtain ⟨hg, hns⟩ := pySplit_eq_singleton sep cs g hc
          rw [hg]
          have hall : ∀ x ∈ cs.reverse ++ [c], decide (x ≠ sep) = true := by
            intro x hx
            rcases List.mem_append.mp hx with hx | hx
            · simp only [List.mem_reverse] at hx
              have hxs : x ≠ sep := by
                intro hxs
                exact hns (hxs ▸ hx)
              simp [hxs]
            · simp only [List.mem_singleton] at hx
              subst hx
              simp [h]
          rw [List.reverse_cons, takeWhile_all (cs.reverse ++ [c]) hall]
          simp
        | cons g2 gs2 =>
          have hmem : sep ∈ cs := mem_of_pySplit_two sep cs g g2 gs2 hc
          rw [hc, List.getLastD_cons, List.getLastD_cons] at ih
          rw [List.getLastD_cons, List.getLastD_cons, ih, List.reverse_cons,
            takeWhile_append_of_mem_false cs.reverse [c] sep
              (by simpa using hmem) (by simp)]

/-- C9 counterexample: for the image URL `http://a.com/i.png?v=1.2`
(no `wx_fmt` hint), `_download_image` takes the text after the last dot
of the WHOLE URL — which lies inside the query string — and derives the
extension `"2"`, not the URL path suffix `"png"` the claim describes. -/
theorem C9_counterexample :
    imgExt "http://a.com/i.png?v=1.2" = "2" ∧
    claimPathSuffix "http://a.com/i.png?v=1.2" = "png" ∧
    imgExt "http://a.com/i.png?v=1.2" ≠ claimPathSuffix "http://a.com/i.png?v=1.2" := by
  decide

/-- C9 (amended): the extension of the generated local filename is the
first `wx_fmt` query-string value when present, else the text after the
last dot of the ENTIRE URL truncated at the first following `?`; and
whenever the so-detected extension is longer than 4 characters it is
replaced by `jpg` — so the detected extension never exceeds 4
characters. -/
theorem C9_extension_detection (url : String) :
    (∀ f fs, parseQsVals (queryOf url) "wx_fmt" = f :: fs →
       imgExt url = (if f.length > 4 then "jpg" else f)) ∧
    (parseQsVals (queryOf url) "wx_fmt" = [] →
       imgExt url =
         (if (chopAtQm (afterLastDot url)).length > 4 then "jpg"
          else chopAtQm (afterLastDot url))) ∧
    (imgExt url).length ≤ 4 := by
  have hkey : (⟨(pySplit '?' ((pySplit '.' url.data).getLastD [])).headD []⟩ : String)
      = chopAtQm (afterLastDot url) := by
    apply String.ext
    show (pySplit '?' ((pySplit '.' url.data).getLastD [])).headD []
        = (afterLastDot url).data.takeWhile (fun c => c ≠ '?')
    rw [pySplit_headD]
    have : (pySplit '.' url.data).getLastD [] = (afterLastDot url).data := by
      rw [pySplit_getLastD]
      rfl
    rw [this]
  refine ⟨?_, ?_, ?_⟩
  · intro f fs hq
    unfold imgExt
    rw [hq]
  · intro hq
    unfold imgExt
    rw [hq, hkey]
  · have clip : ∀ fmt : String, (if fmt.length > 4 then "jpg" else fmt).length ≤ 4 := by
      intro fmt
      by_cases hl : fmt.length > 4
      · simp only [hl, if_true]
        decide
      · simp only [hl, if_false]
        omega
    unfold imgExt
    cases parseQsVals (queryOf url) "wx_fmt" <;> exact clip _

theorem C9_witness :
    imgExt "http://mmbiz.qpic.cn/pic?wx_fmt=png" =
      (if ("png" : String).length > 4 then "jpg" else "png") ∧
    imgExt "http://a.com/i.png?v=1.2" =
      (if (chopAtQm (afterLastDot "http://a.com/i.png?v=1.2")).length > 4 then "jpg"
       else chopAtQm (afterLastDot "http://a.com/i.png?v=1.2")) :=
  ⟨(C9_extension_detection "http://mmbiz.qpic.cn/pic?wx_fmt=png").1 "png" [] (by decide),
   (C9_extension_detection "http://a.com/i.png?v=1.2").2.1 (by decide)⟩

/-- A state whose stored record has no `is_pinned` / `is_favorite`
fields — legal in `metadata.json`, whose missing fields default only at
read time. -/
def sC10 : NMState := ⟨fun _ => none, [("a.md", emptyRec)]⟩

/-- C10 counterexample: toggling the pin of a record that lacks the
`is_pinned` field twice does not restore the metadata map — the second
toggle leaves `is_pinned: False` materialised in the record, so the map
differs from its previous value. -/
theorem C10_counterexample :
    mlookup (toggle_pinned (toggle_pinned sC10 "a.md") "a.md").metadata "a.md"
      ≠ mlookup sC10.metadata "a.md" := by
  decide

theorem toggle_pinned_some (s : NMState) (p : String) (r : MetaRec)
    (hr : mlookup s.metadata p = some r) :
    toggle_pinned s p
      = ⟨s.fs, dictSet s.metadata p (setPinned r (some (!(r.is_pinned.getD false))))⟩ := by
  unfold toggle_pinned
  rw [hr]

theorem toggle_favorite_some (s : NMState) (p : String) (r : MetaRec)
    (hr : mlookup s.metadata p = some r) :
    toggle_favorite s p
      = ⟨s.fs, dictSet s.metadata p (setFavorite r (some (!(r.is_favorite.getD false))))⟩ := by
  unfold toggle_favorite
  rw [hr]

theorem setPinned_same (r : MetaRec) (b : Bool) (h : r.is_pinned = some b) :
    setPinned r (some b) = r := by
  cases r
  simp only [setPinned, MetaRec.mk.injEq]
  simp_all

theorem setFavorite_same (r : MetaRec) (b : Bool) (h : r.is_favorite = some b) :
    setFavorite r (some b) = r := by
  cases r
  simp only [setFavorite, MetaRec.mk.injEq]
  simp_all

/-- C10 (amended): toggling pin (resp. favorite) twice restores the
metadata map whenever the record's `is_pinned` (resp. `is_favorite`)
field is present; a single toggle changes only that field of that
record — every other key, every other field, and the filesystem are
unchanged; for a path without a record either toggle is a no-op.  (When
the field is absent, a double toggle materialises it as `False`, so the
map is not restored — see the counterexample.) -/
theorem C10_toggle_involution :
    (∀ (s : NMState) (p : String) (r : MetaRec) (b : Bool),
       mlookup s.metadata p = some r → r.is_pinned = some b →
       ∀ q, mlookup (toggle_pinned (toggle_pinned s p) p).metadata q
          = mlookup s.metadata q) ∧
    (∀ (s : NMState) (p : String) (r : MetaRec),
       mlookup s.metadata p = some r →
       mlookup (toggle_pinned s p).metadata p
           = some (setPinned r (some (!(r.is_pinned.getD false)))) ∧
       (∀ q, q ≠ p → mlookup (toggle_pinned s p).metadata q = mlookup s.metadata q) ∧
       (toggle_pinned s p).fs = s.fs) ∧
    (∀ (s : NMState) (p : String), mlookup s.metadata p = none → toggle_pinned s p = s) ∧
    (∀ (s : NMState) (p : String) (r : MetaRec) (b : Bool),
       mlookup s.metadata p = some r → r.is_favorite = some b →
       ∀ q, mlookup (toggle_favorite (toggle_favorite s p) p).metadata q
          = mlookup s.metadata q) ∧
    (∀ (s : NMState) (p : String) (r : MetaRec),
       mlookup s.metadata p = some r →
       mlookup (toggle_favorite s p).metadata p
           = some (setFavorite r (some (!(r.is_favorite.getD false)))) ∧
       (∀ q, q ≠ p → mlookup (toggle_favorite s p).metadata q = mlookup s.metadata q) ∧
       (toggle_favorite s p).fs = s.fs) ∧
    (∀ (s : NMState) (p : String), mlookup s.metadata p = none → toggle_favorite s p = s) := by
  refine ⟨?_, ?_, ?_, ?_, ?_, ?_⟩
  · intro s p r b hr hb q
    have h1 := toggle_pinned_some s p r hr
    have hl1 : mlookup (toggle_pinned s p).metadata p
        = some (setPinned r (some (!(r.is_pinned.getD false)))) := by
      rw [h1]
      exact mlookup_dictSet_self _ _ _
    have h2 := toggle_pinned_some (toggle_pinned s p) p _ hl1
    rw [h2]
    by_cases hq : q = p
    · subst hq
      rw [mlookup_dictSet_self, hr]
      have hb0 : r.is_pinned.getD false = b := by
        rw [hb]
        rfl
      have hx : (setPinned r (some (!(r.is_pinned.getD false)))).is_pinned.getD false
          = !(r.is_pinned.getD false) := rfl
      rw [hx, hb0, Bool.not_not]
      rw [show setPinned (setPinned r (some (!b))) (some b) = setPinned r (some b) from rfl]
      rw [setPinned_same r b hb]
    · rw [mlookup_dictSet_other _ _ _ _ hq, h1]
      exact mlookup_dictSet_other _ _ _ _ hq
  · intro s p r hr
    rw [toggle_pinned_some s p r hr]
    exact ⟨mlookup_dictSet_self _ _ _, fun q hq => mlookup_dictSet_other _ _ _ _ hq, rfl⟩
  · intro s p hr
    unfold toggle_pinned
    rw [hr]
  · intro s p r b hr hb q
    have h1 := toggle_favorite_some s p r hr
    have hl1 : mlookup (toggle_favorite s p).metadata p
        = some (setFavorite r (some (!(r.is_favorite.getD false)))) := by
      rw [h1]
      exact mlookup_dictSet_self _ _ _
    have h2 := toggle_favorite_some (toggle_favorite s p) p _ hl1
    rw [h2]
    by_cases hq : q = p
    · subst hq
      rw [mlookup_dictSet_self, hr]
      have hb0 : r.is_favorite.getD false = b := by
        rw [hb]
        rfl
      have hx : (setFavorite r (some (!(r.is_favorite.getD false)))).is_favorite.getD false
          = !(r.is_favorite.getD false) := rfl
      rw [hx, hb0, Bool.not_not]
      rw [show setFavorite (setFavorite r (some (!b))) (some b) = setFavorite r (some b) from rfl]
      rw [setFavorite_same r b hb]
    · rw [mlookup_dictSet_other _ _ _ _ hq, h1]
      exact mlookup_dictSet_other _ _ _ _ hq
  · intro s p r hr
    rw [toggle_favorite_some s p r hr]
    exact ⟨mlookup_dictSet_self _ _ _, fun q hq => mlookup_dictSet_other _ _ _ _ hq, rfl⟩
  · intro s p hr
    unfold toggle_favorite
    rw [hr]

theorem C10_witness :
    mlookup (toggle_pinned (toggle_pinned sW1 "f/a.md") "f/a.md").metadata "f/a.md"
      = mlookup sW1.metadata "f/a.md" :=
  C10_toggle_involution.1 sW1 "f/a.md" rW1 false (by decide) rfl "f/a.md"
